import Mathlib

/-!
# AVL tree of `AvlTree.h`: embedding and verification

The class template `AvlTree<Comparable>` stores a key `task_ID : Comparable`
and a payload `heap_index : int` in each node.  `insert` passes the payload as a
`const Comparable &` into the brace-initialised `AvlNode{ x, y, nullptr, nullptr }`,
whose second parameter is `int`; list-initialisation forbids narrowing, so
`Comparable` is an integer type that fits in `int`.  Keys and payloads are
therefore integers here.  No arithmetic is done on keys.  Cached heights are
`int`; they are modelled as unbounded integers, since a tree whose height
reaches `2^31` cannot be held in memory.

A pointer `AvlNode *` is either `nullptr` or the node it points to, together
with the subtrees that node owns.  A function taking `AvlNode * & t` becomes a
function from the old subtree to the new one.  Reading a member through a null
pointer is an error, so the functions that dereference return `Except Error`.
-/

namespace AvlTree

/-- Failures: the exception thrown by `findMin`/`findMax`, and a read through `nullptr`. -/
inductive Error where
  | UnderflowException
  | NullDereference
  deriving DecidableEq

end AvlTree

/-- The value of an `AvlNode *`: `null` is `nullptr`, `node` is a node with its fields. -/
inductive AvlNode where
  | null : AvlNode
  | node (task_ID : Int) (heap_index : Int) (left right : AvlNode) (height : Int) : AvlNode
  deriving DecidableEq

/-- The class `AvlTree`: its only data member is `root`. -/
structure AvlTree where
  root : AvlNode
  deriving DecidableEq

namespace AvlTree

open AvlNode

/-- Return the height of node t or -1 if nullptr. -/
def height : AvlNode → Int
  | null => -1
  | node _ _ _ _ h => h

/-- The member `max`: `lhs > rhs ? lhs : rhs`. -/
def max (lhs rhs : Int) : Int := if lhs > rhs then lhs else rhs

/-- The constant `ALLOWED_IMBALANCE`. -/
def ALLOWED_IMBALANCE : Int := 1

/-- Rotate binary tree node with left child (case 1). -/
def rotateWithLeftChild : AvlNode → Except Error AvlNode
  | node k2 i2 (node k1 i1 l1 r1 _) r2 _ =>
    let h2 := max (height r1) (height r2) + 1
    .ok (node k1 i1 l1 (node k2 i2 r1 r2 h2) (max (height l1) h2 + 1))
  | _ => .error .NullDereference

/-- Rotate binary tree node with right child (case 4). -/
def rotateWithRightChild : AvlNode → Except Error AvlNode
  | node k1 i1 l1 (node k2 i2 l2 r2 _) _ =>
    let h1 := max (height l1) (height l2) + 1
    .ok (node k2 i2 (node k1 i1 l1 l2 h1) r2 (max (height r2) h1 + 1))
  | _ => .error .NullDereference

/-- Double rotation, case 2: `rotateWithRightChild( k3->left )` then `rotateWithLeftChild( k3 )`. -/
def doubleWithLeftChild : AvlNode → Except Error AvlNode
  | null => .error .NullDereference
  | node k i l r h =>
    match rotateWithRightChild l with
    | .error e => .error e
    | .ok l' => rotateWithLeftChild (node k i l' r h)

/-- Double rotation, case 3: `rotateWithLeftChild( k1->right )` then `rotateWithRightChild( k1 )`. -/
def doubleWithRightChild : AvlNode → Except Error AvlNode
  | null => .error .NullDereference
  | node k i l r h =>
    match rotateWithLeftChild r with
    | .error e => .error e
    | .ok r' => rotateWithRightChild (node k i l r' h)

/-- The last statement of `balance`: `t->height = max( height( t->left ), height( t->right ) ) + 1`. -/
def setHeight : AvlNode → Except Error AvlNode
  | null => .error .NullDereference
  | node k i l r _ => .ok (node k i l r (max (height l) (height r) + 1))

/-- The rotation chosen by `balance` for a non-null `t`, before the height is stored. -/
def rebalance : AvlNode → Except Error AvlNode
  | null => .error .NullDereference
  | node k i l r h =>
    if height l - height r > ALLOWED_IMBALANCE then
      match l with
      | null => .error .NullDereference
      | node _ _ ll lr _ =>
        if height ll ≥ height lr then rotateWithLeftChild (node k i l r h)
        else doubleWithLeftChild (node k i l r h)
    else if height r - height l > ALLOWED_IMBALANCE then
      match r with
      | null => .error .NullDereference
      | node _ _ rl rr _ =>
        if height rr ≥ height rl then rotateWithRightChild (node k i l r h)
        else doubleWithRightChild (node k i l r h)
    else .ok (node k i l r h)

/-- The function `balance`: nothing on `nullptr`, else rotate if needed and store the height. -/
def balance : AvlNode → Except Error AvlNode
  | null => .ok null
  | node k i l r h =>
    match rebalance (node k i l r h) with
    | .error e => .error e
    | .ok t => setHeight t

/-- Internal method to insert into a subtree: `x` is the ID, `y` the heap index. -/
def insert_private (x y : Int) : AvlNode → Except Error AvlNode
  | null => balance (node x y null null 0)
  | node k i l r h =>
    if x < k then
      match insert_private x y l with
      | .error e => .error e
      | .ok l' => balance (node k i l' r h)
    else if k < x then
      match insert_private x y r with
      | .error e => .error e
      | .ok r' => balance (node k i l r' h)
    else balance (node k i l r h)

/-- Internal method to find the smallest item in a subtree; returns the node, `null` for `nullptr`. -/
def findMin_private : AvlNode → AvlNode
  | null => null
  | node k i null r h => node k i null r h
  | node _ _ (node k i l r h) _ _ => findMin_private (node k i l r h)

/-- Internal method to find the largest item in a subtree: the loop walks `t = t->right`. -/
def findMax_private : AvlNode → AvlNode
  | null => null
  | node k i l null h => node k i l null h
  | node _ _ _ (node k i l r h) _ => findMax_private (node k i l r h)

/-- The read `p->task_ID` through a pointer `p`. -/
def task_ID : AvlNode → Except Error Int
  | null => .error .NullDereference
  | node k _ _ _ _ => .ok k

/-- The test `p == nullptr`. -/
def isNull : AvlNode → Bool
  | null => true
  | node _ _ _ _ _ => false

/-- Internal method to remove from a subtree. -/
def remove_private (x : Int) : AvlNode → Except Error AvlNode
  | null => .ok null
  | node k i l r h =>
    if x < k then
      match remove_private x l with
      | .error e => .error e
      | .ok l' => balance (node k i l' r h)
    else if k < x then
      match remove_private x r with
      | .error e => .error e
      | .ok r' => balance (node k i l r' h)
    else if !isNull l && !isNull r then
      match task_ID (findMin_private r) with
      | .error e => .error e
      | .ok m =>
        match remove_private m r with
        | .error e => .error e
        | .ok r' => balance (node m i l r' h)
    else balance (if !isNull l then l else r)

/-- Internal method to test if an item is in a subtree. -/
def contains_private (x : Int) : AvlNode → Bool
  | null => false
  | node k _ l r _ =>
    if x < k then contains_private x l
    else if k < x then contains_private x r
    else true

/-- Internal method to print a subtree in sorted order: the lines written, as (task ID, heap index). -/
def printTree_private : AvlNode → List (Int × Int)
  | null => []
  | node k i l r _ => printTree_private l ++ (k, i) :: printTree_private r

/-- Test if the tree is logically empty. -/
def isEmpty (T : AvlTree) : Bool := isNull T.root

/-- Find the smallest item in the tree; throw `UnderflowException` if empty. -/
def findMin (T : AvlTree) : Except Error Int :=
  if isEmpty T then .error .UnderflowException
  else task_ID (findMin_private T.root)

/-- Find the largest item in the tree; throw `UnderflowException` if empty. -/
def findMax (T : AvlTree) : Except Error Int :=
  if isEmpty T then .error .UnderflowException
  else task_ID (findMax_private T.root)

/-- Returns true if x is found in the tree; the method is `const`, the tree after the call is the second component. -/
def contains (x : Int) (T : AvlTree) : Bool × AvlTree :=
  (contains_private x T.root, T)

/-- Insert x into the tree; duplicates are ignored. -/
def insert (x y : Int) (T : AvlTree) : Except Error AvlTree :=
  match insert_private x y T.root with
  | .error e => .error e
  | .ok t => .ok ⟨t⟩

/-- Remove x from the tree. Nothing is done if x is not found. -/
def remove (x : Int) (T : AvlTree) : Except Error AvlTree :=
  match remove_private x T.root with
  | .error e => .error e
  | .ok t => .ok ⟨t⟩

/-! ## The invariants of the data model -/

/-- The keys held by the nodes of a subtree, listed in in-order. -/
def keys : AvlNode → List Int
  | null => []
  | node k _ l r _ => keys l ++ k :: keys r

/-- BST invariant: at every node the keys of the left subtree are less than the node's key
and the keys of the right subtree are greater. -/
def isBST : AvlNode → Prop
  | null => True
  | node k _ l r _ => (∀ a ∈ keys l, a < k) ∧ (∀ b ∈ keys r, k < b) ∧ isBST l ∧ isBST r

/-- AVL balance invariant: at every node `|height(left) - height(right)| <= 1`. -/
def isBalanced : AvlNode → Prop
  | null => True
  | node _ _ l r _ =>
    (height l - height r ≤ 1 ∧ height r - height l ≤ 1) ∧ isBalanced l ∧ isBalanced r

/-- Height correctness: every cached height is 1 + the larger of the children's heights,
where an absent child has height -1. -/
def heightCorrect : AvlNode → Prop
  | null => True
  | node _ _ l r h => h = 1 + Max.max (height l) (height r) ∧ heightCorrect l ∧ heightCorrect r

/-- The recursive definition of the height of a subtree. -/
def realHeight : AvlNode → Int
  | null => -1
  | node _ _ l r _ => 1 + Max.max (realHeight l) (realHeight r)

instance decIsBST : (t : AvlNode) → Decidable (isBST t)
  | null => isTrue trivial
  | node k _ l r _ =>
    have : Decidable (isBST l) := decIsBST l
    have : Decidable (isBST r) := decIsBST r
    inferInstanceAs (Decidable ((∀ a ∈ keys l, a < k) ∧ (∀ b ∈ keys r, k < b) ∧ isBST l ∧ isBST r))

instance decIsBalanced : (t : AvlNode) → Decidable (isBalanced t)
  | null => isTrue trivial
  | node _ _ l r _ =>
    have : Decidable (isBalanced l) := decIsBalanced l
    have : Decidable (isBalanced r) := decIsBalanced r
    inferInstanceAs (Decidable ((height l - height r ≤ 1 ∧ height r - height l ≤ 1) ∧
      isBalanced l ∧ isBalanced r))

instance decHeightCorrect : (t : AvlNode) → Decidable (heightCorrect t)
  | null => isTrue trivial
  | node _ _ l r h =>
    have : Decidable (heightCorrect l) := decHeightCorrect l
    have : Decidable (heightCorrect r) := decHeightCorrect r
    inferInstanceAs (Decidable (h = 1 + Max.max (height l) (height r) ∧
      heightCorrect l ∧ heightCorrect r))

/-! ## Callers and sample trees -/

/-- The default constructor `AvlTree( )`: the root is `nullptr`. -/
def empty : AvlTree := ⟨null⟩

/-- A caller that inserts each (task ID, heap index) pair in turn. -/
def insertAll : List (Int × Int) → AvlTree → Except Error AvlTree
  | [], T => .ok T
  | (x, y) :: rest, T =>
    match insert x y T with
    | .error e => .error e
    | .ok T' => insertAll rest T'

/-- The tree built by inserting 5,3,8,1,4,7,9 with heap indices 0..6. -/
def scenarioTree : AvlTree :=
  ⟨node 5 0
    (node 3 1 (node 1 3 null null 0) (node 4 4 null null 0) 1)
    (node 8 2 (node 7 5 null null 0) (node 9 6 null null 0) 1) 2⟩

/-- The tree built by inserting 10,5,15,3,7,12,18 with heap indices 0..6. -/
def successorTree : AvlTree :=
  ⟨node 10 0
    (node 5 1 (node 3 3 null null 0) (node 7 4 null null 0) 1)
    (node 15 2 (node 12 5 null null 0) (node 18 6 null null 0) 1) 2⟩

/-! ## Clearing, moving and dumping the tree -/

/-- Internal method to make subtree empty: both subtrees are emptied, the node is deleted,
and the pointer is set to `nullptr`; the result is the new value of the pointer. -/
def makeEmpty_private : AvlNode → AvlNode
  | null => null
  | node _ _ l r _ =>
    match makeEmpty_private l, makeEmpty_private r with
    | _, _ => null

/-- Make the tree logically empty. -/
def makeEmpty (T : AvlTree) : AvlTree := ⟨makeEmpty_private T.root⟩

/-- The move constructor `AvlTree( AvlTree && rhs )`: the new tree takes `rhs.root` and
`rhs.root` is set to `nullptr`.  The result is (new tree, `rhs` afterwards). -/
def moveConstruct (rhs : AvlTree) : AvlTree × AvlTree :=
  (⟨rhs.root⟩, ⟨null⟩)

/-- The move assignment `operator=( AvlTree && rhs )`: `std::swap( root, rhs.root )`.
The result is (`*this` afterwards, `rhs` afterwards). -/
def moveAssign (this rhs : AvlTree) : AvlTree × AvlTree :=
  (⟨rhs.root⟩, ⟨this.root⟩)

/-- What `displayTree` writes to `out`: the message for an empty tree, or one line per node
with the number of leading spaces, the task ID, the heap index and the task IDs read through
the left and the right child pointer. -/
inductive DisplayLine where
  | cannotPrint : DisplayLine
  | line (spaces : Int) (task_ID heap_index leftID rightID : Int) : DisplayLine
  deriving DecidableEq

/-- The method `displayTree_private`: for a non-null `t` it writes `SHIFT*depth` spaces, the
node's fields, `t->left->task_ID` and `t->right->task_ID`, then dumps the left and the right
subtree one level deeper. -/
def displayTree_private : AvlNode → Int → Except Error (List DisplayLine)
  | null, _ => .ok []
  | node k i l r _, depth =>
    match task_ID l with
    | .error e => .error e
    | .ok lk =>
      match task_ID r with
      | .error e => .error e
      | .ok rk =>
        match displayTree_private l (depth + 1) with
        | .error e => .error e
        | .ok ls =>
          match displayTree_private r (depth + 1) with
          | .error e => .error e
          | .ok rs => .ok (DisplayLine.line (4 * depth) k i lk rk :: (ls ++ rs))

/-- The method `displayTree`. -/
def displayTree (T : AvlTree) : Except Error (List DisplayLine) :=
  if isEmpty T then .ok [DisplayLine.cannotPrint]
  else displayTree_private T.root 0

/-! ## Sequences of operations -/

/-- One call of a mutating public operation. -/
inductive Op where
  | insert (x y : Int) : Op
  | remove (x : Int) : Op
  deriving DecidableEq

/-- A caller that performs the operations in turn, stopping at the first failure. -/
def applyOps : List Op → AvlTree → Except Error AvlTree
  | [], T => .ok T
  | Op.insert x y :: rest, T =>
    match insert x y T with
    | .error e => .error e
    | .ok T' => applyOps rest T'
  | Op.remove x :: rest, T =>
    match remove x T with
    | .error e => .error e
    | .ok T' => applyOps rest T'

/-! ## Reference definitions taken from the specification -/

/-- Plain BST insertion as the specification words it: descend by comparison, attach the key
as a new leaf of height 0 where the search fails, and recompute the heights on the path; an
equivalent key stops the descent and leaves the subtree as it is.  No rebalancing. -/
def plainInsert (x y : Int) : AvlNode → AvlNode
  | null => node x y null null 0
  | node k i l r h =>
    if x < k then
      node k i (plainInsert x y l) r (1 + Max.max (height (plainInsert x y l)) (height r))
    else if k < x then
      node k i l (plainInsert x y r) (1 + Max.max (height l) (height (plainInsert x y r)))
    else node k i l r h

/-- The pair `p` put at its sorted position in a list of (key, secondary index) pairs that
is ascending by key: before the first pair whose key is greater. -/
def sortedInsert (p : Int × Int) : List (Int × Int) → List (Int × Int)
  | [] => [p]
  | q :: rest => if p.1 < q.1 then p :: q :: rest else q :: sortedInsert p rest

/-! ## Basic facts -/

theorem max_eq (a b : Int) : max a b = Max.max a b := by
  unfold max
  split <;> omega

theorem keys_eq_print (t : AvlNode) : keys t = (printTree_private t).map Prod.fst := by
  induction t with
  | null => rfl
  | node k i l r h ihl ihr => simp [keys, printTree_private, ihl, ihr]

theorem isBST_iff_pairwise (t : AvlNode) : isBST t ↔ (keys t).Pairwise (· < ·) := by
  induction t with
  | null => simp [isBST, keys]
  | node k i l r h ihl ihr =>
    simp only [isBST, keys, List.pairwise_append, List.pairwise_cons, List.mem_cons, ihl, ihr]
    constructor
    · rintro ⟨h1, h2, h3, h4⟩
      refine ⟨h3, ⟨h2, h4⟩, ?_⟩
      rintro a ha b (rfl | hb)
      · exact h1 a ha
      · exact lt_trans (h1 a ha) (h2 b hb)
    · rintro ⟨h3, ⟨h2, h4⟩, h5⟩
      exact ⟨fun a ha => h5 a ha k (Or.inl rfl), h2, h3, h4⟩

theorem isBST_of_print_eq {t t' : AvlNode} (h : printTree_private t' = printTree_private t)
    (hb : isBST t) : isBST t' := by
  rw [isBST_iff_pairwise, keys_eq_print, h, ← keys_eq_print, ← isBST_iff_pairwise]
  exact hb

theorem keys_of_print_eq {t t' : AvlNode} (h : printTree_private t' = printTree_private t) :
    keys t' = keys t := by
  rw [keys_eq_print, keys_eq_print, h]

theorem height_ge {t : AvlNode} (h : heightCorrect t) : -1 ≤ height t := by
  induction t with
  | null => simp [height]
  | node k i l r c ihl ihr =>
    simp only [heightCorrect] at h
    have := ihl h.2.1
    simp only [height]
    omega

theorem height_eq_realHeight {t : AvlNode} (h : heightCorrect t) : height t = realHeight t := by
  induction t with
  | null => rfl
  | node k i l r c ihl ihr =>
    simp only [heightCorrect] at h
    simp only [height, realHeight, ← ihl h.2.1, ← ihr h.2.2]
    exact h.1

/-! ## Rotations keep the in-order sequence -/

theorem rotateWithLeftChild_print {t t' : AvlNode} (h : rotateWithLeftChild t = .ok t') :
    printTree_private t' = printTree_private t := by
  unfold rotateWithLeftChild at h
  split at h
  · cases h
    simp [printTree_private]
  · cases h

theorem rotateWithRightChild_print {t t' : AvlNode} (h : rotateWithRightChild t = .ok t') :
    printTree_private t' = printTree_private t := by
  unfold rotateWithRightChild at h
  split at h
  · cases h
    simp [printTree_private]
  · cases h

theorem doubleWithLeftChild_print {t t' : AvlNode} (h : doubleWithLeftChild t = .ok t') :
    printTree_private t' = printTree_private t := by
  unfold doubleWithLeftChild at h
  split at h
  · cases h
  · split at h
    · cases h
    · rename_i hl
      rw [rotateWithLeftChild_print h]
      simp [printTree_private, rotateWithRightChild_print hl]

theorem doubleWithRightChild_print {t t' : AvlNode} (h : doubleWithRightChild t = .ok t') :
    printTree_private t' = printTree_private t := by
  unfold doubleWithRightChild at h
  split at h
  · cases h
  · split at h
    · cases h
    · rename_i hr
      rw [rotateWithRightChild_print h]
      simp [printTree_private, rotateWithLeftChild_print hr]

theorem setHeight_print {t t' : AvlNode} (h : setHeight t = .ok t') :
    printTree_private t' = printTree_private t := by
  unfold setHeight at h
  split at h
  · cases h
  · cases h
    simp [printTree_private]

theorem rebalance_print {t t' : AvlNode} (h : rebalance t = .ok t') :
    printTree_private t' = printTree_private t := by
  unfold rebalance at h
  split at h
  · cases h
  · split at h
    · split at h
      · cases h
      · split at h
        · exact rotateWithLeftChild_print h
        · exact doubleWithLeftChild_print h
    · split at h
      · split at h
        · cases h
        · split at h
          · exact rotateWithRightChild_print h
          · exact doubleWithRightChild_print h
      · cases h
        rfl

theorem balance_print {t t' : AvlNode} (h : balance t = .ok t') :
    printTree_private t' = printTree_private t := by
  unfold balance at h
  split at h
  · cases h
    rfl
  · split at h
    · cases h
    · rename_i hr
      rw [setHeight_print h, rebalance_print hr]

/-! ## What `balance` does on a node whose subtrees have correct heights -/

theorem height_null : height null = -1 := rfl

theorem height_node (k i : Int) (l r : AvlNode) (h : Int) : height (node k i l r h) = h := rfl

theorem balance_heightCorrect (k i h : Int) {l r : AvlNode}
    (hl : heightCorrect l) (hr : heightCorrect r) :
    ∃ t', balance (node k i l r h) = .ok t' ∧ heightCorrect t' := by
  have gl := height_ge hl
  have gr := height_ge hr
  by_cases c1 : height l - height r > 1
  · cases l with
    | null => simp only [height_null] at c1; omega
    | node k1 i1 ll lr h1 =>
      simp only [heightCorrect] at hl
      have gll := height_ge hl.2.1
      have glr := height_ge hl.2.2
      by_cases c2 : height ll ≥ height lr
      · refine ⟨_, by simp [balance, rebalance, ALLOWED_IMBALANCE, c1, c2, rotateWithLeftChild, setHeight]; rfl, ?_⟩
        simp only [heightCorrect, height_node, max_eq]
        refine ⟨by omega, hl.2.1, by omega, hl.2.2, hr⟩
      · cases lr with
        | null => simp only [height_null] at c2; omega
        | node k3 i3 a b h3 =>
          simp only [heightCorrect] at hl
          refine ⟨_, by simp [balance, rebalance, ALLOWED_IMBALANCE, c1, c2, doubleWithLeftChild, rotateWithRightChild, rotateWithLeftChild, setHeight]; rfl, ?_⟩
          simp only [heightCorrect, height_node, max_eq]
          refine ⟨by omega, ⟨by omega, hl.2.1, hl.2.2.2.1⟩, by omega, hl.2.2.2.2, hr⟩
  · by_cases c3 : height r - height l > 1
    · cases r with
      | null => simp only [height_null] at c3; omega
      | node k1 i1 rl rr h1 =>
        simp only [heightCorrect] at hr
        by_cases c4 : height rr ≥ height rl
        · refine ⟨_, by simp [balance, rebalance, ALLOWED_IMBALANCE, c1, c3, c4, rotateWithRightChild, setHeight]; rfl, ?_⟩
          simp only [heightCorrect, height_node, max_eq]
          refine ⟨by omega, ⟨by omega, hl, hr.2.1⟩, hr.2.2⟩
        · have grr := height_ge hr.2.2
          cases rl with
          | null => simp only [height_null] at c4; omega
          | node k3 i3 a b h3 =>
            simp only [heightCorrect] at hr
            refine ⟨_, by simp [balance, rebalance, ALLOWED_IMBALANCE, c1, c3, c4, doubleWithRightChild, rotateWithRightChild, rotateWithLeftChild, setHeight]; rfl, ?_⟩
            simp only [heightCorrect, height_node, max_eq]
            refine ⟨by omega, ⟨by omega, hl, hr.2.1.2.1⟩, by omega, hr.2.1.2.2, hr.2.2⟩
    · refine ⟨_, by simp [balance, rebalance, ALLOWED_IMBALANCE, c1, c3, setHeight]; rfl, ?_⟩
      simp only [heightCorrect, height_node, max_eq]
      exact ⟨by omega, hl, hr⟩

/-! ## What `balance` does when the subtrees are AVL trees whose heights differ by at most 2 -/

theorem balance_avl (k i h : Int) {l r : AvlNode}
    (hl : heightCorrect l) (hr : heightCorrect r) (bl : isBalanced l) (br : isBalanced r)
    (d1 : height l - height r ≤ 2) (d2 : height r - height l ≤ 2) :
    ∃ t', balance (node k i l r h) = .ok t' ∧ heightCorrect t' ∧ isBalanced t' ∧
      (height t' = 1 + Max.max (height l) (height r) ∨
        (height t' = Max.max (height l) (height r) ∧
          (height l - height r = 2 ∨ height r - height l = 2))) := by
  have gl := height_ge hl
  have gr := height_ge hr
  by_cases c1 : height l - height r > 1
  · cases l with
    | null => simp only [height_null] at c1; omega
    | node k1 i1 ll lr h1 =>
      simp only [heightCorrect] at hl
      simp only [isBalanced] at bl
      have gll := height_ge hl.2.1
      have glr := height_ge hl.2.2
      simp only [height_node] at c1 d1 d2 gl
      by_cases c2 : height ll ≥ height lr
      · refine ⟨_, by simp [balance, rebalance, ALLOWED_IMBALANCE, height_node, c1, c2, rotateWithLeftChild, setHeight]; rfl, ?_, ?_, ?_⟩
        · simp only [heightCorrect, height_node, max_eq]
          exact ⟨by omega, hl.2.1, by omega, hl.2.2, hr⟩
        · simp only [isBalanced, height_node, max_eq]
          exact ⟨by omega, bl.2.1, by omega, bl.2.2, br⟩
        · simp only [height_node, max_eq]
          omega
      · cases lr with
        | null => simp only [height_null] at c2; omega
        | node k3 i3 a b h3 =>
          simp only [heightCorrect] at hl
          simp only [isBalanced] at bl
          have ga := height_ge hl.2.2.2.1
          have gb := height_ge hl.2.2.2.2
          simp only [height_node] at c2 hl bl glr
          refine ⟨_, by simp [balance, rebalance, ALLOWED_IMBALANCE, height_node, c1, c2, doubleWithLeftChild, rotateWithRightChild, rotateWithLeftChild, setHeight]; rfl, ?_, ?_, ?_⟩
          · simp only [heightCorrect, height_node, max_eq]
            exact ⟨by omega, ⟨by omega, hl.2.1, hl.2.2.2.1⟩, by omega, hl.2.2.2.2, hr⟩
          · simp only [isBalanced, height_node, max_eq]
            exact ⟨by omega, ⟨by omega, bl.2.1, bl.2.2.2.1⟩, by omega, bl.2.2.2.2, br⟩
          · simp only [height_node, max_eq]
            omega
  · by_cases c3 : height r - height l > 1
    · cases r with
      | null => simp only [height_null] at c3; omega
      | node k1 i1 rl rr h1 =>
        simp only [heightCorrect] at hr
        simp only [isBalanced] at br
        have grl := height_ge hr.2.1
        have grr := height_ge hr.2.2
        simp only [height_node] at c1 c3 d1 d2 gr
        by_cases c4 : height rr ≥ height rl
        · refine ⟨_, by simp [balance, rebalance, ALLOWED_IMBALANCE, height_node, c1, c3, c4, rotateWithRightChild, setHeight]; rfl, ?_, ?_, ?_⟩
          · simp only [heightCorrect, height_node, max_eq]
            exact ⟨by omega, ⟨by omega, hl, hr.2.1⟩, hr.2.2⟩
          · simp only [isBalanced, height_node, max_eq]
            exact ⟨by omega, ⟨by omega, bl, br.2.1⟩, br.2.2⟩
          · simp only [height_node, max_eq]
            omega
        · cases rl with
          | null => simp only [height_null] at c4; omega
          | node k3 i3 a b h3 =>
            simp only [heightCorrect] at hr
            simp only [isBalanced] at br
            have ga := height_ge hr.2.1.2.1
            have gb := height_ge hr.2.1.2.2
            simp only [height_node] at c4 hr br grl
            refine ⟨_, by simp [balance, rebalance, ALLOWED_IMBALANCE, height_node, c1, c3, c4, doubleWithRightChild, rotateWithRightChild, rotateWithLeftChild, setHeight]; rfl, ?_, ?_, ?_⟩
            · simp only [heightCorrect, height_node, max_eq]
              exact ⟨by omega, ⟨by omega, hl, hr.2.1.2.1⟩, by omega, hr.2.1.2.2, hr.2.2⟩
            · simp only [isBalanced, height_node, max_eq]
              exact ⟨by omega, ⟨by omega, bl, br.2.1.2.1⟩, by omega, br.2.1.2.2, br.2.2⟩
            · simp only [height_node, max_eq]
              omega
    · refine ⟨_, by simp [balance, rebalance, ALLOWED_IMBALANCE, height_node, c1, c3, setHeight]; rfl, ?_, ?_, ?_⟩
      · simp only [heightCorrect, height_node, max_eq]
        exact ⟨by omega, hl, hr⟩
      · simp only [isBalanced]
        exact ⟨by omega, bl, br⟩
      · simp only [height_node, max_eq]
        omega

/-- On a node that is already balanced and carries its correct height, `balance` changes nothing. -/
theorem balance_id (k i h : Int) (l r : AvlNode)
    (e : h = 1 + Max.max (height l) (height r))
    (d1 : height l - height r ≤ 1) (d2 : height r - height l ≤ 1) :
    balance (node k i l r h) = .ok (node k i l r h) := by
  have c1 : ¬ height l - height r > 1 := by omega
  have c3 : ¬ height r - height l > 1 := by omega
  simp only [balance, rebalance, ALLOWED_IMBALANCE, c1, c3, setHeight, if_false, max_eq]
  rw [e]
  congr 2
  omega

/-! ## Insertion -/

theorem balance_keys {t t' : AvlNode} (h : balance t = .ok t') : keys t' = keys t :=
  keys_of_print_eq (balance_print h)

theorem balance_isBST {t t' : AvlNode} (h : balance t = .ok t') (hb : isBST t) : isBST t' :=
  isBST_of_print_eq (balance_print h) hb

theorem insert_private_keys {x y : Int} {t t' : AvlNode} (h : insert_private x y t = .ok t') :
    ∀ a, a ∈ keys t' ↔ a = x ∨ a ∈ keys t := by
  induction t generalizing t' with
  | null =>
    intro a
    simp only [insert_private] at h
    simp [balance_keys h, keys]
  | node k i l r c ihl ihr =>
    intro a
    simp only [insert_private] at h
    split at h
    · split at h
      · cases h
      · rename_i l' hl'
        have := ihl hl' a
        simp only [balance_keys h, keys, List.mem_append, List.mem_cons, this]
        tauto
    · split at h
      · split at h
        · cases h
        · rename_i r' hr'
          have := ihr hr' a
          simp only [balance_keys h, keys, List.mem_append, List.mem_cons, this]
          tauto
      · have e : x = k := by omega
        simp only [balance_keys h, keys, List.mem_append, List.mem_cons, e]
        tauto

theorem insert_private_isBST {x y : Int} {t t' : AvlNode} (h : insert_private x y t = .ok t')
    (hb : isBST t) : isBST t' := by
  induction t generalizing t' with
  | null =>
    simp only [insert_private] at h
    exact balance_isBST h (by simp [isBST, keys])
  | node k i l r c ihl ihr =>
    simp only [insert_private] at h
    simp only [isBST] at hb
    split at h
    · rename_i hlt
      split at h
      · cases h
      · rename_i l' hl'
        refine balance_isBST h ?_
        simp only [isBST]
        refine ⟨?_, hb.2.1, ihl hl' hb.2.2.1, hb.2.2.2⟩
        intro a ha
        rcases (insert_private_keys hl' a).1 ha with rfl | ha
        · exact hlt
        · exact hb.1 a ha
    · split at h
      · rename_i hgt
        split at h
        · cases h
        · rename_i r' hr'
          refine balance_isBST h ?_
          simp only [isBST]
          refine ⟨hb.1, ?_, hb.2.2.1, ihr hr' hb.2.2.2⟩
          intro a ha
          rcases (insert_private_keys hr' a).1 ha with rfl | ha
          · exact hgt
          · exact hb.2.1 a ha
      · exact balance_isBST h (by simp only [isBST]; exact hb)

theorem insert_private_heightCorrect (x y : Int) {t : AvlNode} (hc : heightCorrect t) :
    ∃ t', insert_private x y t = .ok t' ∧ heightCorrect t' := by
  induction t with
  | null =>
    simp only [insert_private]
    exact balance_heightCorrect x y 0 trivial trivial
  | node k i l r c ihl ihr =>
    simp only [heightCorrect] at hc
    simp only [insert_private]
    split
    · obtain ⟨l', hl', hcl'⟩ := ihl hc.2.1
      simp only [hl']
      exact balance_heightCorrect k i c hcl' hc.2.2
    · split
      · obtain ⟨r', hr', hcr'⟩ := ihr hc.2.2
        simp only [hr']
        exact balance_heightCorrect k i c hc.2.1 hcr'
      · exact balance_heightCorrect k i c hc.2.1 hc.2.2

theorem insert_private_avl (x y : Int) {t : AvlNode} (hc : heightCorrect t) (hb : isBalanced t) :
    ∃ t', insert_private x y t = .ok t' ∧ heightCorrect t' ∧ isBalanced t' ∧
      (height t' = height t ∨ height t' = height t + 1) := by
  induction t with
  | null =>
    simp only [insert_private]
    obtain ⟨t', h1, h2, h3, h4⟩ :=
      balance_avl x y 0 (l := null) (r := null) trivial trivial trivial trivial
        (by simp [height_null]) (by simp [height_null])
    refine ⟨t', h1, h2, h3, ?_⟩
    simp only [height_null] at h4 ⊢
    omega
  | node k i l r c ihl ihr =>
    simp only [heightCorrect] at hc
    simp only [isBalanced] at hb
    simp only [insert_private, height_node]
    split
    · obtain ⟨l', hl', hcl', hbl', hh⟩ := ihl hc.2.1 hb.2.1
      simp only [hl']
      obtain ⟨t', h1, h2, h3, h4⟩ :=
        balance_avl k i c hcl' hc.2.2 hbl' hb.2.2 (by omega) (by omega)
      refine ⟨t', h1, h2, h3, ?_⟩
      omega
    · split
      · obtain ⟨r', hr', hcr', hbr', hh⟩ := ihr hc.2.2 hb.2.2
        simp only [hr']
        obtain ⟨t', h1, h2, h3, h4⟩ :=
          balance_avl k i c hc.2.1 hcr' hb.2.1 hbr' (by omega) (by omega)
        refine ⟨t', h1, h2, h3, ?_⟩
        omega
      · refine ⟨_, balance_id k i c l r hc.1 hb.1.1 hb.1.2, ?_, ?_, Or.inl rfl⟩
        · simp only [heightCorrect]; exact hc
        · simp only [isBalanced]; exact hb

/-! ## The leftmost and rightmost nodes -/

theorem findMin_private_spec (k i : Int) (l r : AvlNode) (h : Int) :
    ∃ m, task_ID (findMin_private (node k i l r h)) = .ok m ∧ m ∈ keys (node k i l r h) ∧
      (isBST (node k i l r h) → ∀ a ∈ keys (node k i l r h), m ≤ a) := by
  induction l generalizing k i r h with
  | null =>
    refine ⟨k, rfl, by simp [keys], ?_⟩
    intro hb a ha
    simp only [isBST] at hb
    simp only [keys, List.nil_append, List.mem_cons] at ha
    rcases ha with rfl | ha
    · exact le_refl _
    · exact le_of_lt (hb.2.1 a ha)
  | node k1 i1 l1 r1 h1 ihl _ =>
    obtain ⟨m, hm, hmem, hmin⟩ := ihl k1 i1 r1 h1
    refine ⟨m, by simpa only [findMin_private] using hm, ?_, ?_⟩
    · rw [keys]
      exact List.mem_append_left _ hmem
    · intro hb a ha
      simp only [isBST] at hb
      rw [keys, List.mem_append, List.mem_cons] at ha
      have hmk : m < k := hb.1 m hmem
      rcases ha with ha | rfl | ha
      · exact hmin (by simp only [isBST]; exact hb.2.2.1) a ha
      · exact le_of_lt hmk
      · exact le_of_lt (lt_trans hmk (hb.2.1 a ha))

theorem findMax_private_spec (k i : Int) (l r : AvlNode) (h : Int) :
    ∃ m, task_ID (findMax_private (node k i l r h)) = .ok m ∧ m ∈ keys (node k i l r h) ∧
      (isBST (node k i l r h) → ∀ a ∈ keys (node k i l r h), a ≤ m) := by
  induction r generalizing k i l h with
  | null =>
    refine ⟨k, rfl, by simp [keys], ?_⟩
    intro hb a ha
    simp only [isBST] at hb
    simp only [keys, List.append_nil, List.mem_append, List.mem_singleton] at ha
    rcases ha with ha | rfl
    · exact le_of_lt (hb.1 a ha)
    · exact le_refl _
  | node k1 i1 l1 r1 h1 _ ihr =>
    obtain ⟨m, hm, hmem, hmax⟩ := ihr k1 i1 l1 h1
    refine ⟨m, by simpa only [findMax_private] using hm, ?_, ?_⟩
    · rw [keys]
      exact List.mem_append_right _ (List.mem_cons_of_mem _ hmem)
    · intro hb a ha
      simp only [isBST] at hb
      rw [keys, List.mem_append, List.mem_cons] at ha
      have hkm : k < m := hb.2.1 m hmem
      rcases ha with ha | rfl | ha
      · exact le_of_lt (lt_trans (hb.1 a ha) hkm)
      · exact le_of_lt hkm
      · exact hmax (by simp only [isBST]; exact hb.2.2.2) a ha

/-! ## Removal -/

theorem balance_id_avl {t : AvlNode} (hc : heightCorrect t) (hb : isBalanced t) :
    balance t = .ok t := by
  cases t with
  | null => rfl
  | node k i l r h =>
    simp only [heightCorrect] at hc
    simp only [isBalanced] at hb
    exact balance_id k i h l r hc.1 hb.1.1 hb.1.2

theorem isNull_eq_true {t : AvlNode} : isNull t = true ↔ t = null := by
  cases t <;> simp [isNull]

theorem keys_null : keys null = [] := rfl

theorem mem_keys_node (a k i : Int) (l r : AvlNode) (h : Int) :
    a ∈ keys (node k i l r h) ↔ a ∈ keys l ∨ a = k ∨ a ∈ keys r := by
  rw [keys, List.mem_append, List.mem_cons]

theorem findMin_private_nonnull {t : AvlNode} (hn : isNull t = false) :
    ∃ m, task_ID (findMin_private t) = .ok m ∧ m ∈ keys t ∧
      (isBST t → ∀ a ∈ keys t, m ≤ a) := by
  cases t with
  | null => simp [isNull] at hn
  | node k i l r h => exact findMin_private_spec k i l r h

theorem findMax_private_nonnull {t : AvlNode} (hn : isNull t = false) :
    ∃ m, task_ID (findMax_private t) = .ok m ∧ m ∈ keys t ∧
      (isBST t → ∀ a ∈ keys t, a ≤ m) := by
  cases t with
  | null => simp [isNull] at hn
  | node k i l r h => exact findMax_private_spec k i l r h

theorem remove_private_keys {x : Int} {t t' : AvlNode} (hb : isBST t)
    (h : remove_private x t = .ok t') : ∀ a, a ∈ keys t' ↔ a ∈ keys t ∧ a ≠ x := by
  induction t generalizing x t' with
  | null =>
    intro a
    simp only [remove_private] at h
    cases h
    simp [keys]
  | node k i l r c ihl ihr =>
    intro a
    simp only [isBST] at hb
    simp only [remove_private] at h
    have hl := hb.1 a
    have hr := hb.2.1 a
    split at h
    · split at h
      · cases h
      · rename_i l' hl'
        have := ihl hb.2.2.1 hl' a
        simp only [balance_keys h, keys, List.mem_append, List.mem_cons, this]
        constructor
        · rintro (⟨h1, h2⟩ | rfl | h3)
          · exact ⟨Or.inl h1, h2⟩
          · exact ⟨Or.inr (Or.inl rfl), by omega⟩
          · exact ⟨Or.inr (Or.inr h3), by have := hr h3; omega⟩
        · rintro ⟨h1 | rfl | h3, h2⟩
          · exact Or.inl ⟨h1, h2⟩
          · exact Or.inr (Or.inl rfl)
          · exact Or.inr (Or.inr h3)
    · split at h
      · split at h
        · cases h
        · rename_i r' hr'
          have := ihr hb.2.2.2 hr' a
          simp only [balance_keys h, keys, List.mem_append, List.mem_cons, this]
          constructor
          · rintro (h1 | rfl | ⟨h3, h2⟩)
            · exact ⟨Or.inl h1, by have := hl h1; omega⟩
            · exact ⟨Or.inr (Or.inl rfl), by omega⟩
            · exact ⟨Or.inr (Or.inr h3), h2⟩
          · rintro ⟨h1 | rfl | h3, h2⟩
            · exact Or.inl h1
            · exact Or.inr (Or.inl rfl)
            · exact Or.inr (Or.inr ⟨h3, h2⟩)
      · have e : x = k := by omega
        subst e
        split at h
        · rename_i hn
          simp only [Bool.and_eq_true, Bool.not_eq_true', ] at hn
          obtain ⟨m, hm, hmem, hmin⟩ := findMin_private_nonnull hn.2
          simp only [hm] at h
          split at h
          · cases h
          · rename_i r' hr'
            have := ihr hb.2.2.2 hr' a
            have hxm := hb.2.1 m hmem
            simp only [balance_keys h, mem_keys_node, this]
            constructor
            · rintro (h1 | rfl | ⟨h3, _⟩)
              · exact ⟨Or.inl h1, by have := hl h1; omega⟩
              · exact ⟨Or.inr (Or.inr hmem), by omega⟩
              · exact ⟨Or.inr (Or.inr h3), by have := hr h3; omega⟩
            · rintro ⟨h1 | rfl | h3, h2⟩
              · exact Or.inl h1
              · exact absurd rfl h2
              · by_cases e : a = m
                · exact Or.inr (Or.inl e)
                · exact Or.inr (Or.inr ⟨h3, e⟩)
        · rename_i hn
          simp only [Bool.and_eq_true, Bool.not_eq_true', not_and, Bool.not_eq_false] at hn
          cases hnl : isNull l with
          | true =>
            have el := isNull_eq_true.1 hnl
            subst el
            simp only [isNull, Bool.not_true, Bool.false_eq_true, if_false] at h
            simp only [balance_keys h, mem_keys_node, keys_null, List.not_mem_nil, false_or]
            constructor
            · intro h3
              exact ⟨Or.inr h3, by have := hr h3; omega⟩
            · rintro ⟨rfl | h3, h2⟩
              · exact absurd rfl h2
              · exact h3
          | false =>
            have er := isNull_eq_true.1 (hn hnl)
            subst er
            simp only [hnl, Bool.not_false, if_true] at h
            simp only [balance_keys h, mem_keys_node, keys_null, List.not_mem_nil, or_false]
            constructor
            · intro h3
              exact ⟨Or.inl h3, by have := hl h3; omega⟩
            · rintro ⟨h1 | rfl, h2⟩
              · exact h1
              · exact absurd rfl h2

theorem remove_private_isBST {x : Int} {t t' : AvlNode} (hb : isBST t)
    (h : remove_private x t = .ok t') : isBST t' := by
  induction t generalizing x t' with
  | null =>
    simp only [remove_private] at h
    cases h
    trivial
  | node k i l r c ihl ihr =>
    simp only [isBST] at hb
    simp only [remove_private] at h
    split at h
    · split at h
      · cases h
      · rename_i l' hl'
        refine balance_isBST h ?_
        simp only [isBST]
        refine ⟨?_, hb.2.1, ihl hb.2.2.1 hl', hb.2.2.2⟩
        intro a ha
        exact hb.1 a ((remove_private_keys hb.2.2.1 hl' a).1 ha).1
    · split at h
      · split at h
        · cases h
        · rename_i r' hr'
          refine balance_isBST h ?_
          simp only [isBST]
          refine ⟨hb.1, ?_, hb.2.2.1, ihr hb.2.2.2 hr'⟩
          intro a ha
          exact hb.2.1 a ((remove_private_keys hb.2.2.2 hr' a).1 ha).1
      · split at h
        · rename_i hn
          simp only [Bool.and_eq_true, Bool.not_eq_true'] at hn
          obtain ⟨m, hm, hmem, hmin⟩ := findMin_private_nonnull hn.2
          simp only [hm] at h
          split at h
          · cases h
          · rename_i r' hr'
            refine balance_isBST h ?_
            have hkm := hb.2.1 m hmem
            simp only [isBST]
            refine ⟨?_, ?_, hb.2.2.1, ihr hb.2.2.2 hr'⟩
            · intro a ha
              exact lt_trans (hb.1 a ha) hkm
            · intro a ha
              have h2 := (remove_private_keys hb.2.2.2 hr' a).1 ha
              have h3 := hmin hb.2.2.2 a h2.1
              have h4 := h2.2
              omega
        · refine balance_isBST h ?_
          split
          · exact hb.2.2.1
          · exact hb.2.2.2

theorem remove_private_avl (x : Int) {t : AvlNode} (hc : heightCorrect t) (hb : isBalanced t) :
    ∃ t', remove_private x t = .ok t' ∧ heightCorrect t' ∧ isBalanced t' ∧
      (height t' = height t ∨ height t' = height t - 1) := by
  induction t generalizing x with
  | null => exact ⟨null, rfl, trivial, trivial, Or.inl rfl⟩
  | node k i l r c ihl ihr =>
    simp only [heightCorrect] at hc
    simp only [isBalanced] at hb
    simp only [remove_private, height_node]
    have gl := height_ge hc.2.1
    have gr := height_ge hc.2.2
    split
    · obtain ⟨l', hl', hcl', hbl', hh⟩ := ihl x hc.2.1 hb.2.1
      simp only [hl']
      obtain ⟨t', h1, h2, h3, h4⟩ :=
        balance_avl k i c hcl' hc.2.2 hbl' hb.2.2 (by omega) (by omega)
      have gl' := height_ge hcl'
      refine ⟨t', h1, h2, h3, ?_⟩
      omega
    · split
      · obtain ⟨r', hr', hcr', hbr', hh⟩ := ihr x hc.2.2 hb.2.2
        simp only [hr']
        obtain ⟨t', h1, h2, h3, h4⟩ :=
          balance_avl k i c hc.2.1 hcr' hb.2.1 hbr' (by omega) (by omega)
        have gr' := height_ge hcr'
        refine ⟨t', h1, h2, h3, ?_⟩
        omega
      · split
        · rename_i hn
          simp only [Bool.and_eq_true, Bool.not_eq_true'] at hn
          obtain ⟨m, hm, -, -⟩ := findMin_private_nonnull hn.2
          simp only [hm]
          obtain ⟨r', hr', hcr', hbr', hh⟩ := ihr m hc.2.2 hb.2.2
          simp only [hr']
          obtain ⟨t', h1, h2, h3, h4⟩ :=
            balance_avl m i c hc.2.1 hcr' hb.2.1 hbr' (by omega) (by omega)
          have gr' := height_ge hcr'
          refine ⟨t', h1, h2, h3, ?_⟩
          omega
        · rename_i hn
          simp only [Bool.and_eq_true, Bool.not_eq_true', not_and, Bool.not_eq_false] at hn
          cases hnl : isNull l with
          | true =>
            have el := isNull_eq_true.1 hnl
            subst el
            simp only [Bool.not_true, Bool.false_eq_true, if_false]
            refine ⟨r, balance_id_avl hc.2.2 hb.2.2, hc.2.2, hb.2.2, ?_⟩
            simp only [height_null] at hc
            omega
          | false =>
            have er := isNull_eq_true.1 (hn hnl)
            subst er
            simp only [Bool.not_false, if_true]
            refine ⟨l, balance_id_avl hc.2.1 hb.2.1, hc.2.1, hb.2.1, ?_⟩
            simp only [height_null] at hc
            omega

/-! ## Membership test, duplicate insertion, removal of an absent key -/

theorem equiv_key_iff (x : Int) (t : AvlNode) :
    (∃ a ∈ keys t, ¬ x < a ∧ ¬ a < x) ↔ x ∈ keys t := by
  constructor
  · rintro ⟨a, ha, h1, h2⟩
    have e : a = x := by omega
    exact e ▸ ha
  · intro h
    exact ⟨x, h, lt_irrefl x, lt_irrefl x⟩

theorem contains_private_iff {t : AvlNode} (hb : isBST t) (x : Int) :
    contains_private x t = true ↔ x ∈ keys t := by
  induction t with
  | null => simp [contains_private, keys]
  | node k i l r c ihl ihr =>
    simp only [isBST] at hb
    simp only [contains_private, mem_keys_node]
    have hl := hb.1 x
    have hr := hb.2.1 x
    split
    · rw [ihl hb.2.2.1]
      constructor
      · exact Or.inl
      · rintro (h1 | rfl | h3)
        · exact h1
        · omega
        · have := hr h3; omega
    · split
      · rw [ihr hb.2.2.2]
        constructor
        · exact fun h => Or.inr (Or.inr h)
        · rintro (h1 | rfl | h3)
          · have := hl h1; omega
          · omega
          · exact h3
      · have e : x = k := by omega
        simp [e]

theorem insert_private_present {x : Int} (y : Int) {t : AvlNode} (hb : isBST t)
    (hbal : isBalanced t) (hc : heightCorrect t) (hx : x ∈ keys t) :
    insert_private x y t = .ok t := by
  induction t with
  | null => simp [keys] at hx
  | node k i l r c ihl ihr =>
    simp only [isBST] at hb
    simp only [isBalanced] at hbal
    simp only [heightCorrect] at hc
    rw [mem_keys_node] at hx
    have hl := hb.1 x
    have hr := hb.2.1 x
    simp only [insert_private]
    split
    · have hxl : x ∈ keys l := by
        rcases hx with h1 | rfl | h3
        · exact h1
        · omega
        · have := hr h3; omega
      rw [ihl hb.2.2.1 hbal.2.1 hc.2.1 hxl]
      exact balance_id k i c l r hc.1 hbal.1.1 hbal.1.2
    · split
      · have hxr : x ∈ keys r := by
          rcases hx with h1 | rfl | h3
          · have := hl h1; omega
          · omega
          · exact h3
        rw [ihr hb.2.2.2 hbal.2.2 hc.2.2 hxr]
        exact balance_id k i c l r hc.1 hbal.1.1 hbal.1.2
      · exact balance_id k i c l r hc.1 hbal.1.1 hbal.1.2

theorem remove_private_absent {x : Int} {t : AvlNode}
    (hbal : isBalanced t) (hc : heightCorrect t) (hx : x ∉ keys t) :
    remove_private x t = .ok t := by
  induction t with
  | null => rfl
  | node k i l r c ihl ihr =>
    simp only [isBalanced] at hbal
    simp only [heightCorrect] at hc
    rw [mem_keys_node] at hx
    simp only [remove_private]
    split
    · rw [ihl hbal.2.1 hc.2.1 (fun h => hx (Or.inl h))]
      exact balance_id k i c l r hc.1 hbal.1.1 hbal.1.2
    · split
      · rw [ihr hbal.2.2 hc.2.2 (fun h => hx (Or.inr (Or.inr h)))]
        exact balance_id k i c l r hc.1 hbal.1.1 hbal.1.2
      · exact absurd (Or.inr (Or.inl (by omega))) hx

/-! ## The sample trees are the ones the insertions build -/

theorem scenarioTree_built :
    insertAll [(5, 0), (3, 1), (8, 2), (1, 3), (4, 4), (7, 5), (9, 6)] empty = .ok scenarioTree :=
  rfl

theorem successorTree_built :
    insertAll [(10, 0), (5, 1), (15, 2), (3, 3), (7, 4), (12, 5), (18, 6)] empty
      = .ok successorTree :=
  rfl

/-! ## Invariant preservation -/

/-- C1: if a tree satisfies the BST ordering invariant, the AVL balance invariant and height
correctness, then `insert(k, i)` returns a tree, and that tree satisfies all three again. -/
theorem insert_preserves_invariants (T : AvlTree) (k i : Int)
    (hbst : isBST T.root) (hbal : isBalanced T.root) (hc : heightCorrect T.root) :
    ∃ T', insert k i T = .ok T' ∧ isBST T'.root ∧ isBalanced T'.root ∧ heightCorrect T'.root := by
  obtain ⟨t', h1, h2, h3, -⟩ := insert_private_avl k i hc hbal
  refine ⟨⟨t'⟩, ?_, insert_private_isBST h1 hbst, h3, h2⟩
  simp only [insert, h1]

theorem insert_preserves_invariants_witness :
    (isBST scenarioTree.root ∧ isBalanced scenarioTree.root ∧ heightCorrect scenarioTree.root) ∧
    ∃ T', insert 0 7 scenarioTree = .ok T' ∧
      isBST T'.root ∧ isBalanced T'.root ∧ heightCorrect T'.root :=
  ⟨by decide, insert_preserves_invariants scenarioTree 0 7 (by decide) (by decide) (by decide)⟩

/-- C2: if a tree satisfies the BST ordering invariant, the AVL balance invariant and height
correctness, then `remove(k)` returns a tree for every key `k`, present or not, and that tree
satisfies all three again. -/
theorem remove_preserves_invariants (T : AvlTree) (k : Int)
    (hbst : isBST T.root) (hbal : isBalanced T.root) (hc : heightCorrect T.root) :
    ∃ T', remove k T = .ok T' ∧ isBST T'.root ∧ isBalanced T'.root ∧ heightCorrect T'.root := by
  obtain ⟨t', h1, h2, h3, -⟩ := remove_private_avl k hc hbal
  refine ⟨⟨t'⟩, ?_, remove_private_isBST hbst h1, h3, h2⟩
  simp only [remove, h1]

theorem remove_preserves_invariants_witness :
    (isBST successorTree.root ∧ isBalanced successorTree.root ∧
      heightCorrect successorTree.root) ∧
    ∃ T', remove 10 successorTree = .ok T' ∧
      isBST T'.root ∧ isBalanced T'.root ∧ heightCorrect T'.root :=
  ⟨by decide, remove_preserves_invariants successorTree 10 (by decide) (by decide) (by decide)⟩

/-! ## Membership -/

/-- C3: on a tree in BST order, `contains(x)` is true exactly when some node holds a key `a`
with neither `x < a` nor `a < x`; and the tree after the call is the tree before it. -/
theorem contains_correct (T : AvlTree) (x : Int) (hbst : isBST T.root) :
    ((contains x T).1 = true ↔ ∃ a ∈ keys T.root, ¬ x < a ∧ ¬ a < x) ∧ (contains x T).2 = T := by
  refine ⟨?_, rfl⟩
  rw [equiv_key_iff]
  exact contains_private_iff hbst x

theorem contains_correct_witness :
    isBST scenarioTree.root ∧
    (((contains 4 scenarioTree).1 = true ↔ ∃ a ∈ keys scenarioTree.root, ¬ 4 < a ∧ ¬ a < 4) ∧
      (contains 4 scenarioTree).2 = scenarioTree) :=
  ⟨by decide, contains_correct scenarioTree 4 (by decide)⟩

/-- With correct cached heights `balance` never reads through a null child, so `insert(k, i)`
on a tree in BST order returns a tree, and `contains(k)` on that tree is true. -/
theorem insert_private_then_contains (t : AvlNode) (k i : Int)
    (hbst : isBST t) (hc : heightCorrect t) :
    ∃ t', insert_private k i t = .ok t' ∧ contains_private k t' = true := by
  obtain ⟨t', h1, -⟩ := insert_private_heightCorrect k i hc
  refine ⟨t', h1, ?_⟩
  exact (contains_private_iff (insert_private_isBST h1 hbst) k).2
    ((insert_private_keys h1 k).2 (Or.inl rfl))

/-- C5: if a tree satisfies the tree invariants, then `remove(k)` returns a tree and
`contains(k)` on that tree is false, whichever branch of `remove` was taken. -/
theorem remove_then_contains (T : AvlTree) (k : Int)
    (hbst : isBST T.root) (hbal : isBalanced T.root) (hc : heightCorrect T.root) :
    ∃ T', remove k T = .ok T' ∧ (contains k T').1 = false := by
  obtain ⟨t', h1, -⟩ := remove_private_avl k hc hbal
  refine ⟨⟨t'⟩, by simp only [remove, h1], ?_⟩
  have hb' := remove_private_isBST hbst h1
  have hk : k ∉ keys t' := fun h => ((remove_private_keys hbst h1 k).1 h).2 rfl
  cases hcon : contains_private k t' with
  | false => exact hcon
  | true => exact absurd ((contains_private_iff hb' k).1 hcon) hk

theorem remove_then_contains_witness :
    (isBST successorTree.root ∧ isBalanced successorTree.root ∧
      heightCorrect successorTree.root) ∧
    ∃ T', remove 10 successorTree = .ok T' ∧ (contains 10 T').1 = false :=
  ⟨by decide, remove_then_contains successorTree 10 (by decide) (by decide) (by decide)⟩

/-! ## Operations that leave the tree as it was -/

/-- C6: if a tree satisfies the tree invariants and already holds a key equivalent to `k`,
then `insert(k, i)` returns the very same tree: shape, keys, heap indices (the old one stays
with `k`) and cached heights are unchanged, although `balance` ran on the search path. -/
theorem insert_duplicate_noop (T : AvlTree) (k i : Int)
    (hbst : isBST T.root) (hbal : isBalanced T.root) (hc : heightCorrect T.root)
    (hk : ∃ a ∈ keys T.root, ¬ k < a ∧ ¬ a < k) :
    insert k i T = .ok T := by
  have h1 := insert_private_present i hbst hbal hc ((equiv_key_iff k T.root).1 hk)
  simp only [insert, h1]

theorem insert_duplicate_noop_witness :
    (isBST scenarioTree.root ∧ isBalanced scenarioTree.root ∧ heightCorrect scenarioTree.root ∧
      ∃ a ∈ keys scenarioTree.root, ¬ (4 : Int) < a ∧ ¬ a < 4) ∧
    insert 4 99 scenarioTree = .ok scenarioTree :=
  ⟨by decide,
    insert_duplicate_noop scenarioTree 4 99 (by decide) (by decide) (by decide) (by decide)⟩

/-- C7: if a tree satisfies the tree invariants and holds no key equivalent to `k`, then
`remove(k)` signals no error and returns the very same tree. -/
theorem remove_absent_noop (T : AvlTree) (k : Int)
    (_hbst : isBST T.root) (hbal : isBalanced T.root) (hc : heightCorrect T.root)
    (hk : ¬ ∃ a ∈ keys T.root, ¬ k < a ∧ ¬ a < k) :
    remove k T = .ok T := by
  have h1 := remove_private_absent hbal hc (fun h => hk ((equiv_key_iff k T.root).2 h))
  simp only [remove, h1]

theorem remove_absent_noop_witness :
    (isBST scenarioTree.root ∧ isBalanced scenarioTree.root ∧ heightCorrect scenarioTree.root ∧
      ¬ ∃ a ∈ keys scenarioTree.root, ¬ (6 : Int) < a ∧ ¬ a < 6) ∧
    remove 6 scenarioTree = .ok scenarioTree :=
  ⟨by decide,
    remove_absent_noop scenarioTree 6 (by decide) (by decide) (by decide) (by decide)⟩

/-! ## The heap index on removal -/

/-- C8 on the code: after inserting 10,5,15,3,7,12,18 with heap indices 0..6, key 12 is printed
with heap index 5; `remove(10)` takes the two-children branch, which copies only `task_ID`
from the minimum of the right subtree, so the root then holds key 12 with heap index 0. -/
theorem remove_two_children_keeps_old_index :
    printTree_private successorTree.root
      = [(3, 3), (5, 1), (7, 4), (10, 0), (12, 5), (15, 2), (18, 6)] ∧
    remove 10 successorTree
      = .ok ⟨node 12 0
          (node 5 1 (node 3 3 null null 0) (node 7 4 null null 0) 1)
          (node 15 2 null (node 18 6 null null 0) 1) 2⟩ ∧
    printTree_private (node 12 0
          (node 5 1 (node 3 3 null null 0) (node 7 4 null null 0) 1)
          (node 15 2 null (node 18 6 null null 0) 1) 2)
      = [(3, 3), (5, 1), (7, 4), (12, 0), (15, 2), (18, 6)] :=
  ⟨rfl, rfl, rfl⟩

/-! ## Smallest and largest key -/

/-- C9: on a non-empty tree in BST order, `findMin` returns a key of the tree that no key of
the tree is less than, and `findMax` returns a key of the tree that no key is greater than. -/
theorem findMin_findMax_extremal (T : AvlTree) (hne : isEmpty T = false) (hbst : isBST T.root) :
    (∃ m, findMin T = .ok m ∧ m ∈ keys T.root ∧ ∀ a ∈ keys T.root, ¬ a < m) ∧
    (∃ M, findMax T = .ok M ∧ M ∈ keys T.root ∧ ∀ a ∈ keys T.root, ¬ M < a) := by
  simp only [isEmpty] at hne
  constructor
  · obtain ⟨m, h1, h2, h3⟩ := findMin_private_nonnull hne
    refine ⟨m, by simp only [findMin, isEmpty, hne, Bool.false_eq_true, if_false, h1], h2, ?_⟩
    intro a ha
    exact not_lt.2 (h3 hbst a ha)
  · obtain ⟨M, h1, h2, h3⟩ := findMax_private_nonnull hne
    refine ⟨M, by simp only [findMax, isEmpty, hne, Bool.false_eq_true, if_false, h1], h2, ?_⟩
    intro a ha
    exact not_lt.2 (h3 hbst a ha)

theorem findMin_findMax_extremal_witness :
    (isEmpty successorTree = false ∧ isBST successorTree.root) ∧
    (∃ m, findMin successorTree = .ok m ∧ m ∈ keys successorTree.root ∧
      ∀ a ∈ keys successorTree.root, ¬ a < m) ∧
    (∃ M, findMax successorTree = .ok M ∧ M ∈ keys successorTree.root ∧
      ∀ a ∈ keys successorTree.root, ¬ M < a) :=
  ⟨by decide, findMin_findMax_extremal successorTree (by decide) (by decide)⟩

/-- C10: `findMin` and `findMax` fail with `UnderflowException` exactly on the empty tree, and
return a key exactly on the non-empty trees; no other outcome occurs. -/
theorem findMin_findMax_underflow_iff (T : AvlTree) :
    (findMin T = .error .UnderflowException ↔ isEmpty T = true) ∧
    (findMax T = .error .UnderflowException ↔ isEmpty T = true) ∧
    ((∃ k, findMin T = .ok k) ↔ isEmpty T = false) ∧
    ((∃ k, findMax T = .ok k) ↔ isEmpty T = false) ∧
    (isEmpty T = true ↔ T = empty) := by
  cases hT : isEmpty T with
  | true =>
    have hr : T = empty := by
      cases T with
      | mk root =>
        simp only [isEmpty] at hT
        rw [isNull_eq_true.1 hT]
        rfl
    subst hr
    simp [findMin, findMax, isEmpty, empty, isNull]
  | false =>
    have hn : isNull T.root = false := hT
    obtain ⟨m, h1, -, -⟩ := findMin_private_nonnull hn
    obtain ⟨M, h2, -, -⟩ := findMax_private_nonnull hn
    have hr : T ≠ empty := by
      intro e
      rw [e] at hT
      simp [isEmpty, empty, isNull] at hT
    simp [findMin, findMax, hT, h1, h2, hr]

/-! ## Sorted traversal after any sequence of operations -/

theorem applyOps_invariants (ops : List Op) (T : AvlTree)
    (hbst : isBST T.root) (hbal : isBalanced T.root) (hc : heightCorrect T.root) :
    ∃ T', applyOps ops T = .ok T' ∧ isBST T'.root ∧ isBalanced T'.root ∧ heightCorrect T'.root := by
  induction ops generalizing T with
  | nil => exact ⟨T, rfl, hbst, hbal, hc⟩
  | cons op rest ih =>
    cases op with
    | insert x y =>
      obtain ⟨t1, h1, h2, h3, -⟩ := insert_private_avl x y hc hbal
      have hb1 := insert_private_isBST h1 hbst
      obtain ⟨T', h4, h5⟩ := ih ⟨t1⟩ hb1 h3 h2
      exact ⟨T', by simp only [applyOps, insert, h1, h4], h5⟩
    | remove x =>
      obtain ⟨t1, h1, h2, h3, -⟩ := remove_private_avl x hc hbal
      have hb1 := remove_private_isBST hbst h1
      obtain ⟨T', h4, h5⟩ := ih ⟨t1⟩ hb1 h3 h2
      exact ⟨T', by simp only [applyOps, remove, h1, h4], h5⟩

/-- C11: every finite sequence of insert and remove calls on the empty tree runs to the end,
and the keys that the in-order traversal of `printTree` then lists are strictly ascending, so
no two of them are equivalent. -/
theorem sorted_traversal (ops : List Op) :
    ∃ T, applyOps ops empty = .ok T ∧
      ((printTree_private T.root).map Prod.fst).Pairwise (· < ·) := by
  obtain ⟨T, h1, h2, -, -⟩ := applyOps_invariants ops empty trivial trivial trivial
  refine ⟨T, h1, ?_⟩
  rw [← keys_eq_print, ← isBST_iff_pairwise]
  exact h2

/-! ## Insert, then contains -/

/-- C4: a tree that a caller can hold is one that public insert and remove calls have built from
the empty tree (`root` and the nodes are private).  For every such tree satisfying the BST
ordering invariant, every key `k` and every heap index `i`, `insert(k, i)` returns a tree and
`contains(k)` on that tree is true. -/
theorem insert_then_contains (ops : List Op) (T : AvlTree) (k i : Int)
    (hT : applyOps ops empty = .ok T) (hbst : isBST T.root) :
    ∃ T', insert k i T = .ok T' ∧ (contains k T').1 = true := by
  obtain ⟨T0, h0, -, -, hc0⟩ := applyOps_invariants ops empty trivial trivial trivial
  have e : T0 = T := by
    rw [h0] at hT
    cases hT
    rfl
  subst e
  obtain ⟨t', h1, h2⟩ := insert_private_then_contains T0.root k i hbst hc0
  exact ⟨⟨t'⟩, by simp only [insert, h1], h2⟩

theorem insert_then_contains_witness :
    (applyOps [Op.insert 5 0, Op.insert 3 1, Op.insert 8 2, Op.insert 1 3, Op.insert 4 4,
        Op.insert 7 5, Op.insert 9 6] empty = .ok scenarioTree ∧
      isBST scenarioTree.root) ∧
    ∃ T', insert 0 7 scenarioTree = .ok T' ∧ (contains 0 T').1 = true :=
  ⟨⟨rfl, by decide⟩,
    insert_then_contains
      [Op.insert 5 0, Op.insert 3 1, Op.insert 8 2, Op.insert 1 3, Op.insert 4 4,
        Op.insert 7 5, Op.insert 9 6] scenarioTree 0 7 rfl (by decide)⟩

/-! ## Insertion and removal where no rotation is needed -/

/-- On a node whose subtrees differ in height by at most one, `balance` only stores the height. -/
theorem balance_within (k i h : Int) (l r : AvlNode)
    (d1 : height l - height r ≤ 1) (d2 : height r - height l ≤ 1) :
    balance (node k i l r h) = .ok (node k i l r (1 + Max.max (height l) (height r))) := by
  have c1 : ¬ height l - height r > 1 := by omega
  have c3 : ¬ height r - height l > 1 := by omega
  simp only [balance, rebalance, ALLOWED_IMBALANCE, c1, c3, setHeight, if_false, max_eq]
  congr 2
  omega

theorem insert_private_eq_plainInsert (x y : Int) (t : AvlNode)
    (hx : x ∉ keys t) (hplain : isBalanced (plainInsert x y t)) :
    insert_private x y t = .ok (plainInsert x y t) := by
  induction t with
  | null =>
    simp only [insert_private, plainInsert]
    exact balance_within x y 0 null null (by simp [height_null]) (by simp [height_null])
  | node k i l r c ihl ihr =>
    rw [mem_keys_node] at hx
    by_cases hlt : x < k
    · simp only [plainInsert, hlt, if_true, isBalanced] at hplain
      simp only [insert_private, plainInsert, hlt, if_true]
      rw [ihl (fun h => hx (Or.inl h)) hplain.2.1]
      exact balance_within k i c _ r hplain.1.1 hplain.1.2
    · by_cases hgt : k < x
      · simp only [plainInsert, hlt, hgt, if_true, if_false, isBalanced] at hplain
        simp only [insert_private, plainInsert, hlt, hgt, if_true, if_false]
        rw [ihr (fun h => hx (Or.inr (Or.inr h))) hplain.2.2]
        exact balance_within k i c l _ hplain.1.1 hplain.1.2
      · exact absurd (Or.inr (Or.inl (by omega))) hx

/-- C14: if a tree satisfies the tree invariants, holds no key equivalent to `k`, and plain BST
insertion of `k` (new leaf of height 0, heights recomputed on the path) leaves every node
balanced, then `insert(k, i)` returns exactly the plainly inserted tree. -/
theorem insert_without_rotation (T : AvlTree) (k i : Int)
    (_hbst : isBST T.root) (_hbal : isBalanced T.root) (_hc : heightCorrect T.root)
    (habs : ¬ ∃ a ∈ keys T.root, ¬ k < a ∧ ¬ a < k)
    (hplain : isBalanced (plainInsert k i T.root)) :
    insert k i T = .ok ⟨plainInsert k i T.root⟩ := by
  have h1 := insert_private_eq_plainInsert k i T.root
    (fun h => habs ((equiv_key_iff k T.root).2 h)) hplain
  simp only [insert, h1]

theorem insert_without_rotation_witness :
    insertAll [(5, 0), (3, 1), (8, 2), (1, 3), (4, 4), (7, 5)] empty
      = .ok ⟨node 5 0
          (node 3 1 (node 1 3 null null 0) (node 4 4 null null 0) 1)
          (node 8 2 (node 7 5 null null 0) null 1) 2⟩ ∧
    plainInsert 9 6 (node 5 0
          (node 3 1 (node 1 3 null null 0) (node 4 4 null null 0) 1)
          (node 8 2 (node 7 5 null null 0) null 1) 2) = scenarioTree.root ∧
    insert 9 6 ⟨node 5 0
          (node 3 1 (node 1 3 null null 0) (node 4 4 null null 0) 1)
          (node 8 2 (node 7 5 null null 0) null 1) 2⟩
      = .ok ⟨plainInsert 9 6 (node 5 0
          (node 3 1 (node 1 3 null null 0) (node 4 4 null null 0) 1)
          (node 8 2 (node 7 5 null null 0) null 1) 2)⟩ :=
  ⟨rfl, by decide,
    insert_without_rotation ⟨node 5 0
          (node 3 1 (node 1 3 null null 0) (node 4 4 null null 0) 1)
          (node 8 2 (node 7 5 null null 0) null 1) 2⟩ 9 6
      (by decide) (by decide) (by decide) (by decide) (by decide)⟩

/-- C15 as stated fails: inserting 0 into the tree built from 5,3,8,1,4,7,9 returns exactly the
tree in which 0 is attached as the left child of 1; nothing else is restructured. -/
theorem insert_zero_counterexample :
    insert 0 7 scenarioTree
      = .ok ⟨node 5 0
          (node 3 1 (node 1 3 (node 0 7 null null 0) null 1) (node 4 4 null null 0) 2)
          (node 8 2 (node 7 5 null null 0) (node 9 6 null null 0) 1) 3⟩ :=
  rfl

/-- C15, amended: inserting 0 (with any heap index) into the tree built from 5,3,8,1,4,7,9
causes no imbalance and no rotation: the result is the plainly inserted tree, in which 0 is
the left child of 1, and every node of it satisfies the AVL balance invariant. -/
theorem insert_zero_no_rotation (i : Int) :
    insert 0 i scenarioTree = .ok ⟨plainInsert 0 i scenarioTree.root⟩ ∧
    plainInsert 0 i scenarioTree.root
      = node 5 0
          (node 3 1 (node 1 3 (node 0 i null null 0) null 1) (node 4 4 null null 0) 2)
          (node 8 2 (node 7 5 null null 0) (node 9 6 null null 0) 1) 3 ∧
    isBalanced (plainInsert 0 i scenarioTree.root) :=
  ⟨rfl, rfl, by simp [plainInsert, scenarioTree, isBalanced, height]⟩

/-! ## Removing the key of a root with two children -/

/-- C13: if a tree satisfies the tree invariants, its root has two children and its left subtree
is not taller than its right subtree, then removing the root's key returns a tree whose root
holds the minimum key `m` of the old right subtree, which is the least key of the old tree
above the removed one; the result is in BST order, balanced and has correct heights. -/
theorem remove_root_successor (k i h : Int) (l r : AvlNode)
    (hbst : isBST (node k i l r h)) (hbal : isBalanced (node k i l r h))
    (hc : heightCorrect (node k i l r h))
    (hl : isNull l = false) (hr : isNull r = false) (hh : height l ≤ height r) :
    ∃ m T', task_ID (findMin_private r) = .ok m ∧ m ∈ keys r ∧ k < m ∧
      (∀ a ∈ keys (node k i l r h), k < a → m ≤ a) ∧
      remove k ⟨node k i l r h⟩ = .ok T' ∧ task_ID T'.root = .ok m ∧
      isBST T'.root ∧ isBalanced T'.root ∧ heightCorrect T'.root := by
  obtain ⟨m, hm, hmem, hmin⟩ := findMin_private_nonnull hr
  have hbst' := hbst
  simp only [isBST] at hbst
  simp only [isBalanced] at hbal
  simp only [heightCorrect] at hc
  obtain ⟨r', hr', hcr', hbr', hh'⟩ := remove_private_avl m hc.2.2 hbal.2.2
  have d1 : height l - height r' ≤ 1 := by omega
  have d2 : height r' - height l ≤ 1 := by omega
  have hrem : remove_private k (node k i l r h)
      = .ok (node m i l r' (1 + Max.max (height l) (height r'))) := by
    simp only [remove_private, lt_irrefl, if_false, hl, hr, Bool.not_false, Bool.and_self,
      if_true, hm, hr']
    exact balance_within m i h l r' d1 d2
  refine ⟨m, ⟨node m i l r' (1 + Max.max (height l) (height r'))⟩, hm, hmem,
    hbst.2.1 m hmem, ?_, by simp only [remove, hrem], rfl,
    remove_private_isBST hbst' hrem, ?_, ?_⟩
  · intro a ha hka
    rw [mem_keys_node] at ha
    rcases ha with ha | rfl | ha
    · have := hbst.1 a ha
      omega
    · omega
    · exact hmin hbst.2.2.2 a ha
  · simp only [isBalanced]
    exact ⟨⟨d1, d2⟩, hbal.2.1, hbr'⟩
  · simp only [heightCorrect]
    exact ⟨trivial, hc.2.1, hcr'⟩

theorem remove_root_successor_witness :
    successorTree.root
      = node 10 0
          (node 5 1 (node 3 3 null null 0) (node 7 4 null null 0) 1)
          (node 15 2 (node 12 5 null null 0) (node 18 6 null null 0) 1) 2 ∧
    remove 10 successorTree
      = .ok ⟨node 12 0
          (node 5 1 (node 3 3 null null 0) (node 7 4 null null 0) 1)
          (node 15 2 null (node 18 6 null null 0) 1) 2⟩ ∧
    ∃ m T', task_ID (findMin_private
          (node 15 2 (node 12 5 null null 0) (node 18 6 null null 0) 1)) = .ok m ∧
      m ∈ keys (node 15 2 (node 12 5 null null 0) (node 18 6 null null 0) 1) ∧ 10 < m ∧
      (∀ a ∈ keys (node 10 0
          (node 5 1 (node 3 3 null null 0) (node 7 4 null null 0) 1)
          (node 15 2 (node 12 5 null null 0) (node 18 6 null null 0) 1) 2), 10 < a → m ≤ a) ∧
      remove 10 ⟨node 10 0
          (node 5 1 (node 3 3 null null 0) (node 7 4 null null 0) 1)
          (node 15 2 (node 12 5 null null 0) (node 18 6 null null 0) 1) 2⟩ = .ok T' ∧
      task_ID T'.root = .ok m ∧
      isBST T'.root ∧ isBalanced T'.root ∧ heightCorrect T'.root :=
  ⟨rfl, rfl, remove_root_successor 10 0 2
      (node 5 1 (node 3 3 null null 0) (node 7 4 null null 0) 1)
      (node 15 2 (node 12 5 null null 0) (node 18 6 null null 0) 1)
      (by decide) (by decide) (by decide) rfl rfl (by decide)⟩

/-! ## Clearing the tree -/

theorem makeEmpty_private_eq (t : AvlNode) : makeEmpty_private t = null := by
  cases t <;> rfl

/-- C16: `makeEmpty` turns every tree, the empty one included, into the empty tree; afterwards
`isEmpty` is true and `findMin` and `findMax` fail with `UnderflowException`; calling it a second
time gives the same state as calling it once. -/
theorem makeEmpty_idempotent (T : AvlTree) :
    makeEmpty T = empty ∧
    isEmpty (makeEmpty T) = true ∧
    findMin (makeEmpty T) = .error .UnderflowException ∧
    findMax (makeEmpty T) = .error .UnderflowException ∧
    makeEmpty (makeEmpty T) = makeEmpty T := by
  have h : makeEmpty T = empty := by
    simp only [makeEmpty, makeEmpty_private_eq, empty]
  rw [h]
  exact ⟨rfl, rfl, rfl, rfl, rfl⟩

/-! ## Moving a tree -/

/-- C17 as stated fails: after the move assignment `d = move(s)` with a non-empty destination,
the source holds the nodes the destination held before and is not empty. -/
theorem moveAssign_counterexample :
    (moveAssign scenarioTree successorTree).2 = scenarioTree ∧
    isEmpty (moveAssign scenarioTree successorTree).2 = false :=
  ⟨rfl, rfl⟩

/-- C17, amended: after the move assignment `d = move(s)` the destination holds exactly the
nodes of `s` and the source holds exactly the nodes `d` held before, so the source is empty
if and only if `d` was empty; after move construction the new tree holds exactly the nodes of
`s` and the source is the empty tree. -/
theorem move_transfers_nodes (d s : AvlTree) :
    (moveAssign d s).1 = s ∧ (moveAssign d s).2 = d ∧
    (isEmpty (moveAssign d s).2 = true ↔ isEmpty d = true) ∧
    (moveConstruct s).1 = s ∧ (moveConstruct s).2 = empty :=
  ⟨rfl, rfl, Iff.rfl, rfl, rfl⟩

/-! ## The structural dump -/

theorem displayTree_private_fails (k i : Int) (l r : AvlNode) (h depth : Int) :
    displayTree_private (node k i l r h) depth = .error .NullDereference := by
  induction l generalizing k i r h depth with
  | null => simp only [displayTree_private, task_ID]
  | node k1 i1 l1 r1 h1 ihl _ =>
    cases r with
    | null => simp only [displayTree_private, task_ID]
    | node k2 i2 l2 r2 h2 =>
      rw [displayTree_private, ihl]
      simp only [task_ID]

/-- On every non-empty tree `displayTree` ends in a read through a null child pointer. -/
theorem displayTree_fails_of_nonempty (T : AvlTree) (hne : isEmpty T = false) :
    displayTree T = .error .NullDereference := by
  cases T with
  | mk root =>
    cases root with
    | null => simp [isEmpty, isNull] at hne
    | node k i l r h =>
      simp only [displayTree, hne, Bool.false_eq_true, if_false]
      exact displayTree_private_fails k i l r h 0

/-- C18 on the code: for the tree holding the single key 5, `displayTree` reads
`t->left->task_ID` although `t->left` is `nullptr`; the same happens at the node with one
child in the tree built from 2 and 1. -/
theorem displayTree_reads_null_child :
    insert 5 0 empty = .ok ⟨node 5 0 null null 0⟩ ∧
    displayTree ⟨node 5 0 null null 0⟩ = .error .NullDereference ∧
    insertAll [(2, 0), (1, 1)] empty = .ok ⟨node 2 0 (node 1 1 null null 0) null 1⟩ ∧
    displayTree ⟨node 2 0 (node 1 1 null null 0) null 1⟩ = .error .NullDereference :=
  ⟨rfl, rfl, rfl, rfl⟩

/-! ## The in-order sequence after an insertion -/

theorem sortedInsert_left (p q : Int × Int) (A B : List (Int × Int)) (h : p.1 < q.1) :
    sortedInsert p (A ++ q :: B) = sortedInsert p A ++ q :: B := by
  induction A with
  | nil => simp only [List.nil_append, sortedInsert, h, if_true, List.cons_append]
  | cons a A ih =>
    simp only [List.cons_append, sortedInsert]
    split
    · rfl
    · show a :: sortedInsert p (A ++ q :: B) = a :: (sortedInsert p A ++ q :: B)
      rw [ih]

theorem sortedInsert_right (p q : Int × Int) (A B : List (Int × Int))
    (hA : ∀ a ∈ A, ¬ p.1 < a.1) (hq : ¬ p.1 < q.1) :
    sortedInsert p (A ++ q :: B) = A ++ q :: sortedInsert p B := by
  induction A with
  | nil => simp only [List.nil_append, sortedInsert, hq, if_false]
  | cons a A ih =>
    have ha : ¬ p.1 < a.1 := hA a (List.mem_cons_self a A)
    simp only [List.cons_append, sortedInsert, ha, if_false]
    show a :: sortedInsert p (A ++ q :: B) = a :: (A ++ q :: sortedInsert p B)
    rw [ih (fun b hb => hA b (List.mem_cons_of_mem a hb))]

theorem length_sortedInsert (p : Int × Int) (L : List (Int × Int)) :
    (sortedInsert p L).length = L.length + 1 := by
  induction L with
  | nil => rfl
  | cons a L ih =>
    simp only [sortedInsert]
    split
    · rfl
    · simp only [List.length_cons, ih]

theorem mem_sortedInsert (p q : Int × Int) (L : List (Int × Int)) :
    q ∈ sortedInsert p L ↔ q = p ∨ q ∈ L := by
  induction L with
  | nil => simp [sortedInsert]
  | cons a L ih =>
    simp only [sortedInsert]
    split
    · simp only [List.mem_cons]
    · simp only [List.mem_cons, ih]
      tauto

theorem fst_mem_keys {t : AvlNode} {a : Int × Int} (h : a ∈ printTree_private t) :
    a.1 ∈ keys t := by
  rw [keys_eq_print]
  exact List.mem_map_of_mem Prod.fst h

theorem insert_private_print {x y : Int} {t t' : AvlNode} (hb : isBST t) (hx : x ∉ keys t)
    (h : insert_private x y t = .ok t') :
    printTree_private t' = sortedInsert (x, y) (printTree_private t) := by
  induction t generalizing t' with
  | null =>
    simp only [insert_private] at h
    rw [balance_print h]
    rfl
  | node k i l r c ihl ihr =>
    simp only [isBST] at hb
    rw [mem_keys_node] at hx
    simp only [insert_private] at h
    split at h
    · rename_i hlt
      split at h
      · cases h
      · rename_i l' hl'
        rw [balance_print h]
        simp only [printTree_private]
        rw [ihl hb.2.2.1 (fun e => hx (Or.inl e)) hl']
        exact (sortedInsert_left (x, y) (k, i) _ _ hlt).symm
    · split at h
      · rename_i hgt
        split at h
        · cases h
        · rename_i r' hr'
          rw [balance_print h]
          simp only [printTree_private]
          rw [ihr hb.2.2.2 (fun e => hx (Or.inr (Or.inr e))) hr']
          refine (sortedInsert_right (x, y) (k, i) _ _ ?_ (by simp only; omega)).symm
          intro a ha
          have := hb.1 a.1 (fst_mem_keys ha)
          simp only
          omega
      · exact absurd (Or.inr (Or.inl (by omega))) hx

/-- C19: if a tree satisfies the tree invariants and holds no key equivalent to `k`, then
`insert(k, i)` returns a tree whose in-order sequence of (key, heap index) pairs is the old
sequence with `(k, i)` put at its sorted position; so the sequence is one longer and every
old pair is still in it. -/
theorem insert_adds_one_entry (T : AvlTree) (k i : Int)
    (hbst : isBST T.root) (hbal : isBalanced T.root) (hc : heightCorrect T.root)
    (habs : ¬ ∃ a ∈ keys T.root, ¬ k < a ∧ ¬ a < k) :
    ∃ T', insert k i T = .ok T' ∧
      printTree_private T'.root = sortedInsert (k, i) (printTree_private T.root) ∧
      (printTree_private T'.root).length = (printTree_private T.root).length + 1 ∧
      ∀ p ∈ printTree_private T.root, p ∈ printTree_private T'.root := by
  obtain ⟨t', h1, -⟩ := insert_private_avl k i hc hbal
  have hp := insert_private_print hbst (fun h => habs ((equiv_key_iff k T.root).2 h)) h1
  refine ⟨⟨t'⟩, by simp only [insert, h1], hp, ?_, ?_⟩
  · rw [hp, length_sortedInsert]
  · intro p hpm
    rw [hp, mem_sortedInsert]
    exact Or.inr hpm

theorem insert_adds_one_entry_witness :
    (isBST scenarioTree.root ∧ isBalanced scenarioTree.root ∧ heightCorrect scenarioTree.root ∧
      ¬ ∃ a ∈ keys scenarioTree.root, ¬ (6 : Int) < a ∧ ¬ a < 6) ∧
    sortedInsert (6, 7) (printTree_private scenarioTree.root)
      = [(1, 3), (3, 1), (4, 4), (5, 0), (6, 7), (7, 5), (8, 2), (9, 6)] ∧
    ∃ T', insert 6 7 scenarioTree = .ok T' ∧
      printTree_private T'.root = sortedInsert (6, 7) (printTree_private scenarioTree.root) ∧
      (printTree_private T'.root).length = (printTree_private scenarioTree.root).length + 1 ∧
      ∀ p ∈ printTree_private scenarioTree.root, p ∈ printTree_private T'.root :=
  ⟨by decide, by decide,
    insert_adds_one_entry scenarioTree 6 7 (by decide) (by decide) (by decide) (by decide)⟩

/-! ## The in-order keys after a removal -/

theorem keys_nodup_of_isBST {t : AvlNode} (hb : isBST t) : (keys t).Nodup :=
  ((isBST_iff_pairwise t).1 hb).imp (fun h => ne_of_lt h)

theorem remove_private_keys_erase {x : Int} {t t' : AvlNode} (hb : isBST t)
    (h : remove_private x t = .ok t') : keys t' = (keys t).erase x := by
  have hs : (keys t).Pairwise (· < ·) := (isBST_iff_pairwise t).1 hb
  have hs' : (keys t').Pairwise (· < ·) :=
    (isBST_iff_pairwise t').1 (remove_private_isBST hb h)
  have hse : ((keys t).erase x).Pairwise (· < ·) := hs.sublist (List.erase_sublist x (keys t))
  have hn := keys_nodup_of_isBST hb
  have hn' : (keys t').Nodup := hs'.imp (fun h => ne_of_lt h)
  have hne : ((keys t).erase x).Nodup := hse.imp (fun h => ne_of_lt h)
  have hperm : (keys t').Perm ((keys t).erase x) := by
    rw [List.perm_ext_iff_of_nodup hn' hne]
    intro a
    rw [remove_private_keys hb h a, hn.mem_erase_iff]
    exact And.comm
  exact List.eq_of_perm_of_sorted hperm hs' hse

/-- C20: if a tree satisfies the tree invariants and holds a key equivalent to `k`, then
`remove(k)` returns a tree whose in-order sequence of keys is the old one with that key
deleted; so no key is added, every other key is still there, and the number of keys drops
by exactly one. -/
theorem remove_deletes_one_key (T : AvlTree) (k : Int)
    (hbst : isBST T.root) (hbal : isBalanced T.root) (hc : heightCorrect T.root)
    (hk : ∃ a ∈ keys T.root, ¬ k < a ∧ ¬ a < k) :
    ∃ T', remove k T = .ok T' ∧
      keys T'.root = (keys T.root).erase k ∧
      (keys T'.root).length + 1 = (keys T.root).length ∧
      (∀ a, a ∈ keys T'.root ↔ a ∈ keys T.root ∧ (a < k ∨ k < a)) := by
  obtain ⟨t', h1, -⟩ := remove_private_avl k hc hbal
  have hmem : k ∈ keys T.root := (equiv_key_iff k T.root).1 hk
  have he := remove_private_keys_erase hbst h1
  refine ⟨⟨t'⟩, by simp only [remove, h1], he, ?_, ?_⟩
  · have hpos : 0 < (keys T.root).length := List.length_pos_of_mem hmem
    rw [he, List.length_erase_of_mem hmem]
    omega
  · intro a
    rw [remove_private_keys hbst h1 a]
    constructor
    · rintro ⟨h2, h3⟩
      exact ⟨h2, by omega⟩
    · rintro ⟨h2, h3⟩
      exact ⟨h2, by omega⟩

theorem remove_deletes_one_key_witness :
    (isBST successorTree.root ∧ isBalanced successorTree.root ∧
      heightCorrect successorTree.root ∧
      ∃ a ∈ keys successorTree.root, ¬ (10 : Int) < a ∧ ¬ a < 10) ∧
    (keys successorTree.root).erase 10 = [3, 5, 7, 12, 15, 18] ∧
    ∃ T', remove 10 successorTree = .ok T' ∧
      keys T'.root = (keys successorTree.root).erase 10 ∧
      (keys T'.root).length + 1 = (keys successorTree.root).length ∧
      (∀ a, a ∈ keys T'.root ↔ a ∈ keys successorTree.root ∧ (a < 10 ∨ 10 < a)) :=
  ⟨by decide, by decide,
    remove_deletes_one_key successorTree 10 (by decide) (by decide) (by decide) (by decide)⟩

/-! ## The height bound -/

theorem length_keys_node (k i : Int) (l r : AvlNode) (h : Int) :
    (keys (node k i l r h)).length = (keys l).length + 1 + (keys r).length := by
  rw [keys, List.length_append, List.length_cons]
  omega

/-- An AVL tree of height `n - 1` has at least `fib (n + 2) - 1` keys. -/
theorem fib_le_length_keys (t : AvlNode) (hc : heightCorrect t) (hb : isBalanced t)
    (n : Nat) (hn : height t + 1 = n) : Nat.fib (n + 2) ≤ (keys t).length + 1 := by
  induction t generalizing n with
  | null =>
    rw [height_null] at hn
    have e : n = 0 := by omega
    subst e
    simp [keys_null]
  | node k i l r c ihl ihr =>
    simp only [heightCorrect] at hc
    simp only [isBalanced] at hb
    rw [height_node] at hn
    have gl := height_ge hc.2.1
    have gr := height_ge hc.2.2
    obtain ⟨a, ha⟩ := Int.eq_ofNat_of_zero_le (by omega : 0 ≤ height l + 1)
    obtain ⟨b, hb'⟩ := Int.eq_ofNat_of_zero_le (by omega : 0 ≤ height r + 1)
    have h1 := ihl hc.2.1 hb.2.1 a ha
    have h2 := ihr hc.2.2 hb.2.2 b hb'
    rw [length_keys_node]
    by_cases hab : b ≤ a
    · have e : n = a + 1 := by omega
      subst e
      have h3 : Nat.fib (a + 1) ≤ Nat.fib (b + 2) := Nat.fib_mono (by omega)
      have h4 : Nat.fib (a + 1 + 2) = Nat.fib (a + 1) + Nat.fib (a + 2) := Nat.fib_add_two
      omega
    · have e : n = b + 1 := by omega
      subst e
      have h3 : Nat.fib (b + 1) ≤ Nat.fib (a + 2) := Nat.fib_mono (by omega)
      have h4 : Nat.fib (b + 1 + 2) = Nat.fib (b + 1) + Nat.fib (b + 2) := Nat.fib_add_two
      omega

/-- Fibonacci numbers grow at least like powers of 809/500, which is just below the golden ratio. -/
theorem pow_le_fib (k : Nat) :
    ((809 : ℝ) / 500) ^ k ≤ (Nat.fib (k + 2) : ℝ) ∧
    ((809 : ℝ) / 500) ^ (k + 1) ≤ (Nat.fib (k + 3) : ℝ) := by
  induction k with
  | zero => norm_num
  | succ k ih =>
    refine ⟨ih.2, ?_⟩
    have h4 : Nat.fib (k + 1 + 3) = Nat.fib (k + 2) + Nat.fib (k + 3) := Nat.fib_add_two
    have hpos : (0 : ℝ) ≤ ((809 : ℝ) / 500) ^ k := by positivity
    have e : ((809 : ℝ) / 500) ^ (k + 1 + 1)
        = ((809 : ℝ) / 500) ^ (k + 1) + ((809 : ℝ) / 500) ^ k
          - (19 / 250000) * ((809 : ℝ) / 500) ^ k := by
      ring
    rw [h4, e]
    push_cast
    nlinarith [ih.1, ih.2, hpos]

theorem two_pow_le_pow : ((2 : ℝ)) ^ 2000 ≤ ((809 : ℝ) / 500) ^ 2881 := by
  rw [div_pow, le_div_iff₀ (by positivity)]
  exact_mod_cast (by norm_num : (2 : ℕ) ^ 2000 * 500 ^ 2881 ≤ 809 ^ 2881)

/-- In an AVL tree with `n` keys and height `h`, `(h + 1) * 2000 / 2881 <= log2 (n + 2)`. -/
theorem height_le_logb (t : AvlNode) (hc : heightCorrect t) (hb : isBalanced t) :
    ((height t : ℝ) + 1) * (2000 / 2881) ≤ Real.logb 2 (((keys t).length : ℝ) + 2) := by
  have g := height_ge hc
  obtain ⟨k, hk⟩ := Int.eq_ofNat_of_zero_le (by omega : 0 ≤ height t + 1)
  have hk' : (height t : ℝ) + 1 = (k : ℝ) := by exact_mod_cast hk
  have h1 : (Nat.fib (k + 2) : ℝ) ≤ ((keys t).length : ℝ) + 1 := by
    exact_mod_cast fib_le_length_keys t hc hb k hk
  have h2 := (pow_le_fib k).1
  have hρ : (0 : ℝ) < ((809 : ℝ) / 500) ^ k := by positivity
  have h3 : Real.log (((809 : ℝ) / 500) ^ k) ≤ Real.log (((keys t).length : ℝ) + 2) :=
    Real.log_le_log hρ (by linarith)
  rw [Real.log_pow] at h3
  have h4 : Real.log ((2 : ℝ) ^ 2000) ≤ Real.log (((809 : ℝ) / 500) ^ 2881) :=
    Real.log_le_log (by positivity) two_pow_le_pow
  rw [Real.log_pow, Real.log_pow] at h4
  have hL : 0 < Real.log 2 := Real.log_pos (by norm_num)
  have hk0 : (0 : ℝ) ≤ (k : ℝ) := Nat.cast_nonneg k
  rw [hk', Real.logb, le_div_iff₀ hL]
  push_cast at h4
  nlinarith [h3, h4, hL, hk0, mul_le_mul_of_nonneg_left h4 hk0]

/-- For every size: in an AVL tree with `n` keys and height `h`,
`h + 1 <= 1.4405 * log2 (n + 2)`. -/
theorem height_bound_any_size (t : AvlNode) (hbal : isBalanced t) (hc : heightCorrect t) :
    (height t : ℝ) + 1 ≤ 1.4405 * Real.logb 2 (((keys t).length : ℝ) + 2) := by
  have h1 := height_le_logb t hc hbal
  linarith

theorem logb_le_of_le_two_pow (n m : Nat) (h : n + 2 ≤ 2 ^ m) :
    Real.logb 2 ((n : ℝ) + 2) ≤ (m : ℝ) := by
  have hlen : ((n : ℝ) + 2) ≤ (2 : ℝ) ^ m := by exact_mod_cast h
  have hpos : (0 : ℝ) < (n : ℝ) + 2 := add_pos_of_nonneg_of_pos (Nat.cast_nonneg _) two_pos
  have hlog := Real.log_le_log hpos hlen
  rw [Real.log_pow] at hlog
  have hL : 0 < Real.log 2 := Real.log_pos (by norm_num)
  rw [Real.logb, div_le_iff₀ hL]
  exact hlog

/-- C12: in every tree that satisfies the AVL balance invariant and height correctness, with
`n` keys and height `h` (-1 for the empty tree, 0 for a single node),
`h <= 1.44 * log2 (n + 2) - 0.328` over the real numbers.  The number of keys is that of a
tree that can be held in memory: each node has its own address, and `n + 2 <= 2 ^ 1344`
allows for addresses of up to 1343 bits. -/
theorem height_bound (T : AvlTree) (hbal : isBalanced T.root) (hc : heightCorrect T.root)
    (hn : (keys T.root).length + 2 ≤ 2 ^ 1344) :
    (height T.root : ℝ) ≤ 1.44 * Real.logb 2 (((keys T.root).length : ℝ) + 2) - 0.328 := by
  have h1 := height_le_logb T.root hc hbal
  have h2 := logb_le_of_le_two_pow (keys T.root).length 1344 hn
  push_cast at h2
  linarith

theorem height_bound_witness :
    (isBalanced scenarioTree.root ∧ heightCorrect scenarioTree.root ∧
      (keys scenarioTree.root).length + 2 ≤ 2 ^ 1344 ∧
      (keys scenarioTree.root).length = 7 ∧ height scenarioTree.root = 2) ∧
    (height scenarioTree.root : ℝ)
      ≤ 1.44 * Real.logb 2 (((keys scenarioTree.root).length : ℝ) + 2) - 0.328 :=
  ⟨⟨by decide, by decide,
      Nat.le_trans (by decide : (keys scenarioTree.root).length + 2 ≤ 16) (by norm_num),
      by decide, by decide⟩,
    height_bound scenarioTree (by decide) (by decide)
      (Nat.le_trans (by decide : (keys scenarioTree.root).length + 2 ≤ 16) (by norm_num))⟩

end AvlTree
